import Mathlib

/-
Verification of the markdown event-stream pipeline of Redwood-Wiki.

Shallow embedding of:
  src/regex_utils.rs                (Partition over regex matches)
  src/markdown_utils.rs             (TextMergeStream, LinkHighlightStream,
                                     UnknownRefHandlingStream)
  src/codeblock_syntax_highlight.rs (SyntaxHighlightStream)

Iterators over finite event streams are embedded as total functions on
lists; the per-call mutable state of each Rust iterator is made an
explicit argument. External collaborators (the regex engine, the
syntect highlighter, the resolver callback) are parameters or, for the
fixed LINK_REGEX pattern, a direct model of the leftmost
matching on that pattern.
-/

namespace RedwoodWiki

/-- Link types of pulldown_cmark that the pipeline inspects: `Autolink`,
`ShortcutUnknown`, and everything else collapsed to an opaque index. -/
inductive LinkType
  | autolink
  | shortcutUnknown
  | otherType (n : Nat)
  deriving DecidableEq

/-- pulldown_cmark CodeBlockKind: fenced with a language hint, or indented. -/
inductive CodeBlockKind
  | fenced (lang : String)
  | indented
  deriving DecidableEq

/-- The pulldown_cmark tags the pipeline inspects; all other tags are
collapsed to an opaque index and are passed through by every stage. -/
inductive Tag
  | codeBlock (kind : CodeBlockKind)
  | link (ltype : LinkType) (dest : String) (title : String)
  | otherTag (n : Nat)
  deriving DecidableEq

/-- One pulldown_cmark event: text, start/end tags, raw html, and the
remaining variants (breaks, rules, ...) collapsed to an opaque index. -/
inductive Event
  | text (s : String)
  | startTag (t : Tag)
  | endTag (t : Tag)
  | html (s : String)
  | otherEvent (n : Nat)
  deriving DecidableEq

/-- Is this event a Text event? -/
def Event.isText : Event → Bool
  | .text _ => true
  | _ => false

/- ===== src/regex_utils.rs : Partition ===== -/

/-- Enum `Part` of src/regex_utils.rs: one piece of the partition of a source
string against a pattern. The borrowed `&str` slices become char lists. -/
inductive Part
  | noMatch (t : List Char)
  | matched (t : List Char)
  deriving DecidableEq

/-- Function `Part::as_str`. -/
def Part.str : Part → List Char
  | .noMatch t => t
  | .matched t => t

/-- Is this part a `NoMatch`? -/
def Part.isNoMatch : Part → Bool
  | .noMatch _ => true
  | _ => false

/-- The slice `text[a..b]` of the source. -/
def slice (t : List Char) (a b : Nat) : List Char :=
  (t.drop a).take (b - a)

/-- Well-formedness of a `regex::Matches` (find_iter) result: the matches
are in order, non-overlapping, within the text bounds of length `n`, and
start no earlier than `lo`. -/
def validFrom : Nat → Nat → List (Nat × Nat) → Bool
  | _, _, [] => true
  | lo, n, (s, e) :: ms =>
      decide (lo ≤ s) && decide (s ≤ e) && decide (e ≤ n) && validFrom e n ms

/-- Are all matches non-degenerate (non-empty)? -/
def allNonempty : List (Nat × Nat) → Bool
  | [] => true
  | (s, e) :: ms => decide (s < e) && allNonempty ms

/-- Iterator `Partition::next` of src/regex_utils.rs, run to completion over the
match list. `lo` is the end of the previous match (`0` in the `Init`
state). Each loop step is one `Intra`/`Post` pair of the Rust state
machine: the gap before the match, then the match itself, with empty
results skipped by recursing exactly as `Partition::next` does; the
final `Post` state with no further match flushes the remainder. -/
def partitionGo (t : List Char) : Nat → List (Nat × Nat) → List Part
  | lo, [] =>
      if t.drop lo = [] then [] else [Part.noMatch (t.drop lo)]
  | lo, (s, e) :: ms =>
      (if slice t lo s = [] then [] else [Part.noMatch (slice t lo s)]) ++
        ((if slice t s e = [] then [] else [Part.matched (slice t s e)]) ++
          partitionGo t e ms)

/-- Method `Regex::partition` of src/regex_utils.rs: the full part sequence for
source `t` and find_iter result `ms`. -/
def partition (t : List Char) (ms : List (Nat × Nat)) : List Part :=
  partitionGo t 0 ms

/-- Head of a part list is a `NoMatch`? -/
def headIsNoMatch : List Part → Bool
  | .noMatch _ :: _ => true
  | _ => false

/-- No two consecutive `NoMatch` parts. -/
def noConsecNM : List Part → Bool
  | [] => true
  | p :: rest => (!(p.isNoMatch && headIsNoMatch rest)) && noConsecNM rest

/-- Kind equality of two parts. -/
def Part.sameKind : Part → Part → Bool
  | .noMatch _, .noMatch _ => true
  | .matched _, .matched _ => true
  | _, _ => false

/-- Claimed property of the spec: no two consecutive parts of equal kind. -/
def noConsecSame : List Part → Bool
  | p :: q :: rest => (!(p.sameKind q)) && noConsecSame (q :: rest)
  | _ => true

/- ===== src/markdown_utils.rs : TextMergeStream ===== -/

/-- The per-call state of `TextMergeStream::next`: `idle` is
`last_event == None`; `one e` is `last_event == Some(e)`; `run buf` is
the merge loop of the first match arm with accumulated `string_buf`. -/
inductive MState
  | idle
  | one (e : Event)
  | run (buf : String)
  deriving DecidableEq

/-- Iterator `TextMergeStream::next` of src/markdown_utils.rs, run to completion.
The arms are in bijection with the Rust code: `(None, None)`;
`(Some(last), None)` via the final catch-all arm; `(None, Some(next))`;
`(Some(Text), Some(Text))` entering the merge loop; the catch-all
emission; the merge loop consuming another text; and the merge loop
ending at a non-text event, discarding the buffer when it is empty. -/
def textMergeAux : MState → List Event → List Event
  | .idle, [] => []
  | .one e, [] => [e]
  | .run buf, [] => if buf = "" then [] else [Event.text buf]
  | .idle, e :: rest => textMergeAux (.one e) rest
  | .one (.text s), .text t :: rest => textMergeAux (.run (s ++ t)) rest
  | .one e, e2 :: rest => e :: textMergeAux (.one e2) rest
  | .run buf, .text t :: rest => textMergeAux (.run (buf ++ t)) rest
  | .run buf, e :: rest =>
      if buf = "" then textMergeAux (.one e) rest
      else Event.text buf :: textMergeAux (.one e) rest

/-- Stage `TextMergeStream` over a finite stream. -/
def textMerge (l : List Event) : List Event :=
  textMergeAux .idle l

/-- Concatenation of a list of strings, in order. -/
def sconcat : List String → String
  | [] => ""
  | s :: rest => s ++ sconcat rest

/-- Head of an event list is a text event? -/
def headIsText : List Event → Bool
  | .text _ :: _ => true
  | _ => false

/-- No two adjacent text events. -/
def noAdjTexts : List Event → Bool
  | [] => true
  | e :: rest => (!(e.isText && headIsText rest)) && noAdjTexts rest

/- ===== src/markdown_utils.rs : LinkHighlightStream ===== -/

/-- Characters of the `l` capture group of `LINK_REGEX` in
src/markdown_utils.rs: letters, digits, and the reserved and
unreserved punctuation of RFC 3986 listed there, apostrophe included
(written below as its code point 39). -/
def urlChar (c : Char) : Bool :=
  c.isAlphanum || c = '-' || c = '_' || c = '.' || c = '~' || c = ':' ||
    c = '/' || c = '?' || c = '#' || c = '[' || c = ']' || c = '@' ||
    c = '!' || c = '$' || c = '&' || c = Char.ofNat 39 || c = '(' || c = ')' ||
    c = '*' || c = '+' || c = ',' || c = ';' || c = '='

/-- Length of the scheme part `https?://` of `LINK_REGEX` when it matches
at the head of `l` (greedy `s?`, so `https` is tried first). -/
def schemeLen (l : List Char) : Option Nat :=
  if l.take 8 = "https://".toList then some 8
  else if l.take 7 = "http://".toList then some 7
  else none

/-- Model of the find_iter scan of the external regex engine restricted to the
fixed pattern `LINK_REGEX = (?P<p>https?)://(?P<l>[...]+)` of
src/markdown_utils.rs: left-to-right scan, at each position the scheme
followed by a maximal non-empty run of `urlChar`s, continuing after the
match. `fuel` bounds the recursion; every step consumes at least one
character, so `fuel = l.length` is exact. `i` is the absolute offset. -/
def scanUrls : Nat → List Char → Nat → List (Nat × Nat)
  | 0, _, _ => []
  | _, [], _ => []
  | Nat.succ fuel, c :: tl, i =>
      match schemeLen (c :: tl) with
      | some k =>
          let m := (((c :: tl).drop k).takeWhile urlChar).length
          if m = 0 then scanUrls fuel tl (i + 1)
          else (i, i + k + m) :: scanUrls fuel ((c :: tl).drop (k + m)) (i + k + m)
      | none => scanUrls fuel tl (i + 1)

/-- All `LINK_REGEX` matches of a text, as `(start, end)` offsets. -/
def urlMatches (l : List Char) : List (Nat × Nat) :=
  scanUrls l.length l 0

/-- The `flat_map` body of the `Text` arm of `LinkHighlightStream::next`:
a `NoMatch` becomes one text event, a `Match` becomes an
autolink-start/text/end triple whose destination and visible text are
the matched URL and whose title is empty. -/
def partToEvents : Part → List Event
  | .noMatch t => [Event.text (String.mk t)]
  | .matched t =>
      [Event.startTag (Tag.link .autolink (String.mk t) ""),
       Event.text (String.mk t),
       Event.endTag (Tag.link .autolink (String.mk t) "")]

/-- The injected replacement queue for one text event:
`link_regex.partition(&next_text).flat_map(...)`. -/
def linkParts (s : String) : List Event :=
  (partition s.toList (urlMatches s.toList)).flatMap partToEvents

/-- Iterator `LinkHighlightStream::next` of src/markdown_utils.rs, run to
completion. The Bool is `inside_link`. While `inside_link` holds, the
early return forwards every upstream event unchanged (and never clears
the flag); otherwise a text event is replaced by its partition and the
queue drained FIFO before the next upstream pull, a link start tag sets
the flag, a link end tag clears it, and all else passes through. -/
def linkHighlightAux : Bool → List Event → List Event
  | _, [] => []
  | true, e :: rest => e :: linkHighlightAux true rest
  | false, .text s :: rest => linkParts s ++ linkHighlightAux false rest
  | false, .startTag (.link lt d ti) :: rest =>
      Event.startTag (Tag.link lt d ti) :: linkHighlightAux true rest
  | false, .endTag (.link lt d ti) :: rest =>
      Event.endTag (Tag.link lt d ti) :: linkHighlightAux false rest
  | false, e :: rest => e :: linkHighlightAux false rest

/-- Stage `LinkHighlightStream` over a finite stream (initial `inside_link =
false`). -/
def linkHighlight (l : List Event) : List Event :=
  linkHighlightAux false l

/- ===== src/markdown_utils.rs : UnknownRefHandlingStream ===== -/

/-- The events remaining after the defensive drain loop of
`UnknownRefHandlingStream::next`: everything up to and including the
first `EndTag(Link(ShortcutUnknown, ..))` is discarded; if none occurs,
draining stops at stream exhaustion. -/
def drainSU : List Event → List Event
  | [] => []
  | .endTag (.link .shortcutUnknown _ _) :: rest => rest
  | _ :: rest => drainSU rest

/-- Iterator `UnknownRefHandlingStream::next` of src/markdown_utils.rs, run to
completion. The Bool is true while inside the drain loop. On
`StartTag(Link(ShortcutUnknown, url, title))` the next event is
inspected: a text event invokes the resolver `r` (whose pushed queue is
emitted FIFO before any further upstream pull); any other event —
including the immediate end tag — is consumed silently; in every case
the drain loop then discards events up to and including the next
`ShortcutUnknown` end tag or stream exhaustion. -/
def unknownRefAux (r : String → String → String → List Event) :
    Bool → List Event → List Event
  | _, [] => []
  | true, .endTag (.link .shortcutUnknown _ _) :: rest => unknownRefAux r false rest
  | true, _ :: rest => unknownRefAux r true rest
  | false, .startTag (.link .shortcutUnknown d ti) :: .text s :: rest =>
      r d ti s ++ unknownRefAux r true rest
  | false, [.startTag (.link .shortcutUnknown _ _)] => []
  | false, .startTag (.link .shortcutUnknown _ _) :: _ :: rest =>
      unknownRefAux r true rest
  | false, e :: rest => e :: unknownRefAux r false rest

/-- Stage `UnknownRefHandlingStream` over a finite stream with resolver `r`. -/
def unknownRef (r : String → String → String → List Event)
    (l : List Event) : List Event :=
  unknownRefAux r false l

/- ===== src/codeblock_syntax_highlight.rs : SyntaxHighlightStream ===== -/

/-- Iterator `SyntaxHighlightStream::next` of src/codeblock_syntax_highlight.rs,
run to completion. `hl` abstracts the external syntect engine: syntax
resolution from the code block kind plus `finalize` over the fed lines.
The `Option` state is `html_generator`, holding the kind it was created
from and the lines fed so far; the result is `none` exactly when the
`unwrap()` on an end tag without an active generator would panic.
A start tag (re)creates the generator and passes through; an end tag
with an active generator emits the finalized html now and the original
end tag immediately after; a text event inside a block is consumed into
the generator and nothing is emitted; all else passes through. -/
def syntaxHighlightAux (hl : CodeBlockKind → List String → String) :
    Option (CodeBlockKind × List String) → List Event → Option (List Event)
  | _, [] => some []
  | _, .startTag (.codeBlock k) :: rest =>
      (syntaxHighlightAux hl (some (k, [])) rest).map
        (fun out => Event.startTag (Tag.codeBlock k) :: out)
  | some (ck, lines), .endTag (.codeBlock k) :: rest =>
      (syntaxHighlightAux hl none rest).map
        (fun out => Event.html (hl ck lines) :: Event.endTag (Tag.codeBlock k) :: out)
  | none, .endTag (.codeBlock _) :: _ => none
  | some (ck, lines), .text s :: rest =>
      syntaxHighlightAux hl (some (ck, lines ++ [s])) rest
  | none, .text s :: rest =>
      (syntaxHighlightAux hl none rest).map (fun out => Event.text s :: out)
  | gen, e :: rest =>
      (syntaxHighlightAux hl gen rest).map (fun out => e :: out)

/-- Stage `SyntaxHighlightStream` over a finite stream (no active generator). -/
def syntaxHighlight (hl : CodeBlockKind → List String → String)
    (l : List Event) : Option (List Event) :=
  syntaxHighlightAux hl none l

/-- Balanced code-block tags relative to whether a block is open: every
`EndTag(CodeBlock)` has a preceding unclosed `StartTag(CodeBlock)`. -/
def noUnmatchedEnd : Bool → List Event → Bool
  | _, [] => true
  | _, .startTag (.codeBlock _) :: rest => noUnmatchedEnd true rest
  | inside, .endTag (.codeBlock _) :: rest => inside && noUnmatchedEnd false rest
  | inside, _ :: rest => noUnmatchedEnd inside rest

/- ===== Theorems ===== -/

/-- Splitting a drop at a later index. -/
theorem drop_eq_slice_append (t : List Char) (lo s : Nat) (h : lo ≤ s) :
    t.drop lo = slice t lo s ++ t.drop s := by
  have h2 : (t.drop lo).drop (s - lo) = t.drop s := by
    rw [List.drop_drop]
    congr 1
    omega
  calc t.drop lo
      = (t.drop lo).take (s - lo) ++ (t.drop lo).drop (s - lo) :=
        (List.take_append_drop _ _).symm
    _ = slice t lo s ++ t.drop s := by rw [h2]; rfl

/-- Concatenating the parts emitted by the partition loop from a valid
previous end `lo` gives the remainder of the text from `lo`. -/
theorem partitionGo_concat (t : List Char) (ms : List (Nat × Nat)) :
    ∀ lo, validFrom lo t.length ms = true →
      (partitionGo t lo ms).flatMap Part.str = t.drop lo := by
  induction ms with
  | nil =>
      intro lo _
      simp only [partitionGo]
      split
      · simp_all
      · simp_all [Part.str]
  | cons m ms ih =>
      obtain ⟨s, e⟩ := m
      intro lo hv
      simp only [validFrom, Bool.and_eq_true, decide_eq_true_eq] at hv
      obtain ⟨⟨⟨h1, h2⟩, h3⟩, h4⟩ := hv
      have g1 : ∀ x : List Char,
          (if x = [] then ([] : List Part) else [Part.noMatch x]).flatMap Part.str = x := by
        intro x; split <;> simp_all [Part.str]
      have g2 : ∀ x : List Char,
          (if x = [] then ([] : List Part) else [Part.matched x]).flatMap Part.str = x := by
        intro x; split <;> simp_all [Part.str]
      simp only [partitionGo, List.flatMap_append, g1, g2, ih e h4]
      rw [← drop_eq_slice_append t s e h2, ← drop_eq_slice_append t lo s h1]

/-- No part emitted by the partition loop is empty. -/
theorem partitionGo_ne_nil (t : List Char) (ms : List (Nat × Nat)) :
    ∀ lo, ∀ p ∈ partitionGo t lo ms, p.str ≠ [] := by
  induction ms with
  | nil =>
      intro lo p hp
      by_cases h : t.drop lo = []
      · simp [partitionGo, h] at hp
      · simp [partitionGo, h] at hp
        subst hp
        simpa [Part.str] using h
  | cons m ms ih =>
      obtain ⟨s, e⟩ := m
      intro lo p hp
      simp only [partitionGo, List.mem_append] at hp
      rcases hp with hp | hp | hp
      · by_cases hg : slice t lo s = []
        · simp [hg] at hp
        · simp only [if_neg hg, List.mem_singleton] at hp
          subst hp
          simpa [Part.str] using hg
      · by_cases hm : slice t s e = []
        · simp [hm] at hp
        · simp only [if_neg hm, List.mem_singleton] at hp
          subst hp
          simpa [Part.str] using hm
      · exact ih e p hp

/-- C1: Partition round-trip — for every source string and every valid
find_iter match list, concatenating (in order) the strings of all parts
yielded by `partition` reconstructs the source exactly, no yielded part
is empty, and an empty source yields an empty part sequence. -/
theorem partition_round_trip (t : List Char) (ms : List (Nat × Nat))
    (h : validFrom 0 t.length ms = true) :
    (partition t ms).flatMap Part.str = t ∧
      (∀ p ∈ partition t ms, p.str ≠ []) ∧
      (t = [] → partition t ms = []) := by
  have hc : (partition t ms).flatMap Part.str = t := by
    simpa using partitionGo_concat t ms 0 h
  refine ⟨hc, partitionGo_ne_nil t ms 0, ?_⟩
  intro ht
  subst ht
  cases hP : partition ([] : List Char) ms with
  | nil => rfl
  | cons p ps =>
      exfalso
      have h1 : p.str ≠ [] := by
        apply partitionGo_ne_nil ([] : List Char) ms 0 p
        show p ∈ partition ([] : List Char) ms
        rw [hP]
        exact List.mem_cons_self p ps
      rw [hP] at hc
      simp only [List.flatMap_cons] at hc
      exact h1 (List.append_eq_nil.mp hc).1

/-- C1 witness: the round trip at a concrete text and match list. -/
theorem partition_round_trip_witness :
    validFrom 0 "a---b".toList.length [(1, 4)] = true ∧
      (partition "a---b".toList [(1, 4)]).flatMap Part.str = "a---b".toList :=
  ⟨by decide, (partition_round_trip "a---b".toList [(1, 4)] (by decide)).1⟩

/-- C2 counterexample: on source `"foobar"` with the two adjacent
matches `(0,3)` and `(3,6)` that the pattern `foo|bar` of the own test
of the code produces, `partition` yields two consecutive `Match` parts — the
adjacent matches are not coalesced, refuting the claim as stated. -/
theorem partition_same_kind_cex :
    validFrom 0 "foobar".toList.length [(0, 3), (3, 6)] = true ∧
      partition "foobar".toList [(0, 3), (3, 6)] =
        [Part.matched "foo".toList, Part.matched "bar".toList] ∧
      noConsecSame (partition "foobar".toList [(0, 3), (3, 6)]) = false := by
  decide

/-- A slice of a non-degenerate in-bounds match is non-empty. -/
theorem slice_ne_nil (t : List Char) (s e : Nat) (h1 : s < e)
    (h2 : e ≤ t.length) : slice t s e ≠ [] := by
  intro h
  have hlen := congrArg List.length h
  simp only [slice, List.length_take, List.length_drop, List.length_nil] at hlen
  omega

/-- The partition loop never yields two consecutive `NoMatch` parts when
all matches are non-degenerate. -/
theorem partitionGo_noConsecNM (t : List Char) (ms : List (Nat × Nat)) :
    ∀ lo, validFrom lo t.length ms = true → allNonempty ms = true →
      noConsecNM (partitionGo t lo ms) = true := by
  induction ms with
  | nil =>
      intro lo _ _
      simp only [partitionGo]
      split <;> simp [noConsecNM, headIsNoMatch, Part.isNoMatch]
  | cons m ms ih =>
      obtain ⟨s, e⟩ := m
      intro lo hv hne
      simp only [validFrom, allNonempty, Bool.and_eq_true, decide_eq_true_eq] at hv hne
      obtain ⟨⟨⟨h1, h2⟩, h3⟩, h4⟩ := hv
      obtain ⟨h5, h6⟩ := hne
      have hm : slice t s e ≠ [] := slice_ne_nil t s e h5 h3
      have htail := ih e h4 h6
      simp only [partitionGo, if_neg hm]
      by_cases hg : slice t lo s = []
      · simpa [hg, noConsecNM, Part.isNoMatch] using htail
      · simpa [hg, noConsecNM, Part.isNoMatch, headIsNoMatch] using htail

/-- C2 amended: for every source and valid find_iter match list whose
matches are all non-empty, the partition yields no two consecutive
`NoMatch` parts; consecutive `Match` parts do occur for adjacent
matches (they are not coalesced), as the counterexample shows. -/
theorem partition_no_consecutive_nomatch (t : List Char) (ms : List (Nat × Nat))
    (h1 : validFrom 0 t.length ms = true) (h2 : allNonempty ms = true) :
    noConsecNM (partition t ms) = true :=
  partitionGo_noConsecNM t ms 0 h1 h2

/-- C2 witness: the amended alternation property at a concrete input. -/
theorem partition_no_consecutive_nomatch_witness :
    (validFrom 0 "a---b--".toList.length [(1, 4), (5, 7)] = true ∧
      allNonempty [(1, 4), (5, 7)] = true) ∧
      noConsecNM (partition "a---b--".toList [(1, 4), (5, 7)]) = true :=
  ⟨⟨by decide, by decide⟩,
    partition_no_consecutive_nomatch "a---b--".toList [(1, 4), (5, 7)]
      (by decide) (by decide)⟩

/-- Unfolding the first pull of the merge stream. -/
theorem tm_idle_cons (x : Event) (xs : List Event) :
    textMerge (x :: xs) = textMergeAux (.one x) xs := by
  cases x <;> rfl

/-- A pending non-text event is emitted unchanged and merging restarts. -/
theorem textMergeAux_one_nontext (e : Event) (he : e.isText = false) :
    ∀ l : List Event, textMergeAux (.one e) l = e :: textMerge l := by
  intro l
  cases l with
  | nil => cases e <;> simp [textMergeAux, textMerge, textMergeAux]
  | cons x xs =>
      rw [tm_idle_cons]
      cases e with
      | text s => simp [Event.isText] at he
      | startTag tg => cases x <;> simp [textMergeAux]
      | endTag tg => cases x <;> simp [textMergeAux]
      | html s2 => cases x <;> simp [textMergeAux]
      | otherEvent n => cases x <;> simp [textMergeAux]

/-- The merged output has no adjacent text events, from any reachable
state of the merge loop. -/
theorem textMergeAux_noAdj (l : List Event) :
    (∀ e, noAdjTexts (textMergeAux (.one e) l) = true) ∧
      (∀ buf, noAdjTexts (textMergeAux (.run buf) l) = true) := by
  induction l with
  | nil =>
      refine ⟨fun e => ?_, fun buf => ?_⟩
      · cases e <;> simp [textMergeAux, noAdjTexts, headIsText, Event.isText]
      · by_cases h : buf = "" <;>
          simp [textMergeAux, h, noAdjTexts, headIsText, Event.isText]
  | cons x xs ih =>
      obtain ⟨ih1, ih2⟩ := ih
      have hhead : ∀ y : Event, y.isText = false →
          headIsText (textMergeAux (.one y) xs) = false := by
        intro y hy
        rw [textMergeAux_one_nontext y hy xs]
        cases y <;> simp_all [Event.isText, headIsText]
      refine ⟨fun e => ?_, fun buf => ?_⟩
      · cases e with
        | text s =>
            cases x with
            | text t => simpa [textMergeAux] using ih2 (s ++ t)
            | startTag tg =>
                simp [textMergeAux, noAdjTexts, Event.isText, ih1,
                  hhead (Event.startTag tg) rfl]
            | endTag tg =>
                simp [textMergeAux, noAdjTexts, Event.isText, ih1,
                  hhead (Event.endTag tg) rfl]
            | html s2 =>
                simp [textMergeAux, noAdjTexts, Event.isText, ih1,
                  hhead (Event.html s2) rfl]
            | otherEvent n =>
                simp [textMergeAux, noAdjTexts, Event.isText, ih1,
                  hhead (Event.otherEvent n) rfl]
        | startTag tg =>
            cases x <;> simp [textMergeAux, noAdjTexts, Event.isText, ih1]
        | endTag tg =>
            cases x <;> simp [textMergeAux, noAdjTexts, Event.isText, ih1]
        | html s2 =>
            cases x <;> simp [textMergeAux, noAdjTexts, Event.isText, ih1]
        | otherEvent n =>
            cases x <;> simp [textMergeAux, noAdjTexts, Event.isText, ih1]
      · cases x with
        | text t => simpa [textMergeAux] using ih2 (buf ++ t)
        | startTag tg =>
            by_cases hb : buf = "" <;>
              simp [textMergeAux, hb, noAdjTexts, Event.isText, ih1,
                hhead (Event.startTag tg) rfl]
        | endTag tg =>
            by_cases hb : buf = "" <;>
              simp [textMergeAux, hb, noAdjTexts, Event.isText, ih1,
                hhead (Event.endTag tg) rfl]
        | html s2 =>
            by_cases hb : buf = "" <;>
              simp [textMergeAux, hb, noAdjTexts, Event.isText, ih1,
                hhead (Event.html s2) rfl]
        | otherEvent n =>
            by_cases hb : buf = "" <;>
              simp [textMergeAux, hb, noAdjTexts, Event.isText, ih1,
                hhead (Event.otherEvent n) rfl]

/-- The output of the merge stream has no adjacent text events. -/
theorem tm_out_noAdj (l : List Event) : noAdjTexts (textMerge l) = true := by
  cases l with
  | nil => simp [textMerge, textMergeAux, noAdjTexts]
  | cons x xs =>
      rw [tm_idle_cons]
      exact (textMergeAux_noAdj xs).1 x

/-- On a stream with no adjacent text events, the merge loop from a
pending event is the identity. -/
theorem textMergeAux_one_id (l : List Event) :
    ∀ e, noAdjTexts (e :: l) = true → textMergeAux (.one e) l = e :: l := by
  induction l with
  | nil => intro e _; cases e <;> simp [textMergeAux]
  | cons x xs ih =>
      intro e h
      simp only [noAdjTexts, Bool.and_eq_true] at h
      have h2 : noAdjTexts (x :: xs) = true := by
        have := h.2
        simpa [noAdjTexts] using this
      cases e with
      | text s =>
          cases x with
          | text t => simp [Event.isText, headIsText] at h
          | startTag tg => simp [textMergeAux, ih _ h2]
          | endTag tg => simp [textMergeAux, ih _ h2]
          | html s2 => simp [textMergeAux, ih _ h2]
          | otherEvent n => simp [textMergeAux, ih _ h2]
      | startTag tg =>
          rw [textMergeAux_one_nontext (Event.startTag tg) rfl, tm_idle_cons, ih _ h2]
      | endTag tg =>
          rw [textMergeAux_one_nontext (Event.endTag tg) rfl, tm_idle_cons, ih _ h2]
      | html s2 =>
          rw [textMergeAux_one_nontext (Event.html s2) rfl, tm_idle_cons, ih _ h2]
      | otherEvent n =>
          rw [textMergeAux_one_nontext (Event.otherEvent n) rfl, tm_idle_cons, ih _ h2]

/-- On a stream with no adjacent text events, merging is the identity. -/
theorem tm_id (l : List Event) (h : noAdjTexts l = true) : textMerge l = l := by
  cases l with
  | nil => rfl
  | cons x xs => rw [tm_idle_cons]; exact textMergeAux_one_id xs x h

/-- C9: Merge idempotence — applying `TextMergeStream` twice yields
exactly the same output sequence as applying it once. -/
theorem textMerge_idempotent (l : List Event) :
    textMerge (textMerge l) = textMerge l :=
  tm_id (textMerge l) (tm_out_noAdj l)

/-- C10: the output of `TextMergeStream` never contains two adjacent
text events — every maximal run of input text events collapses to at
most one output text event. -/
theorem textMerge_no_adjacent_texts (l : List Event) :
    noAdjTexts (textMerge l) = true :=
  tm_out_noAdj l

/-- Running the merge loop over a run of text events accumulates their
concatenation, emitting it iff it is non-empty. -/
theorem textMergeAux_run_texts (ts : List String) :
    ∀ (buf : String) (rest : List Event), headIsText rest = false →
      textMergeAux (.run buf) (ts.map Event.text ++ rest) =
        (if buf ++ sconcat ts = "" then []
          else [Event.text (buf ++ sconcat ts)]) ++ textMerge rest := by
  induction ts with
  | nil =>
      intro buf rest h
      cases rest with
      | nil => simp [textMergeAux, textMerge, sconcat, String.append_empty]
      | cons x xs =>
          rw [List.map_nil, List.nil_append, tm_idle_cons]
          cases x with
          | text t => simp [headIsText] at h
          | startTag tg =>
              by_cases hb : buf = "" <;>
                simp [textMergeAux, hb, sconcat, String.append_empty]
          | endTag tg =>
              by_cases hb : buf = "" <;>
                simp [textMergeAux, hb, sconcat, String.append_empty]
          | html s2 =>
              by_cases hb : buf = "" <;>
                simp [textMergeAux, hb, sconcat, String.append_empty]
          | otherEvent n =>
              by_cases hb : buf = "" <;>
                simp [textMergeAux, hb, sconcat, String.append_empty]
  | cons u ts ih =>
      intro buf rest h
      rw [List.map_cons, List.cons_append]
      have step : textMergeAux (.run buf)
          (Event.text u :: (ts.map Event.text ++ rest)) =
          textMergeAux (.run (buf ++ u)) (ts.map Event.text ++ rest) := by
        simp [textMergeAux]
      rw [step, ih (buf ++ u) rest h]
      simp [sconcat, String.append_assoc]

/-- C3 amended: each maximal run of `N ≥ 2` consecutive text events is
replaced by exactly one text event with the concatenated content `C`,
or by zero events when `C` is empty; a run of a single text event —
even an empty one — passes through unchanged; non-text events pass
through in order. -/
theorem textMerge_runs :
    (∀ (ts : List String) (rest : List Event), headIsText rest = false →
        textMerge (ts.map Event.text ++ rest) =
          (match ts with
            | [] => []
            | [s] => [Event.text s]
            | s :: t :: ts2 =>
                if sconcat (s :: t :: ts2) = "" then []
                else [Event.text (sconcat (s :: t :: ts2))]) ++ textMerge rest) ∧
      (∀ (e : Event) (rest : List Event), e.isText = false →
        textMerge (e :: rest) = e :: textMerge rest) := by
  constructor
  · intro ts rest h
    match ts with
    | [] => simp
    | [s] =>
        rw [List.map_cons, List.map_nil, List.cons_append, List.nil_append,
          tm_idle_cons]
        cases rest with
        | nil => simp [textMergeAux, textMerge]
        | cons x xs =>
            rw [tm_idle_cons]
            cases x with
            | text t => simp [headIsText] at h
            | startTag tg => simp [textMergeAux]
            | endTag tg => simp [textMergeAux]
            | html s2 => simp [textMergeAux]
            | otherEvent n => simp [textMergeAux]
    | s :: t :: ts2 =>
        have start : textMerge ((s :: t :: ts2).map Event.text ++ rest) =
            textMergeAux (.run (s ++ t)) (ts2.map Event.text ++ rest) := by
          simp [textMerge, textMergeAux]
        rw [start, textMergeAux_run_texts ts2 (s ++ t) rest h]
        simp [sconcat, String.append_assoc]
  · intro e rest he
    rw [tm_idle_cons, textMergeAux_one_nontext e he rest]

/-- C3 witness: two text events merge into one. -/
theorem textMerge_runs_witness :
    headIsText [] = false ∧
      textMerge [Event.text "a", Event.text "b"] = [Event.text "ab"] := by
  refine ⟨rfl, ?_⟩
  have h := textMerge_runs.1 ["a", "b"] [] rfl
  rw [show ((["a", "b"] : List String).map Event.text ++ ([] : List Event)) =
    [Event.text "a", Event.text "b"] from rfl] at h
  rw [h]
  decide

/-- C3 counterexample: a single empty text event is not dropped — the
code emits it unchanged, while the claim demands zero events for a run
whose concatenated content is empty. -/
theorem textMerge_single_empty_cex :
    textMerge [Event.text ""] = [Event.text ""] ∧
      [Event.text ""] ≠ ([] : List Event) := by
  decide

/-- Once `inside_link` holds, every event passes through untouched and
the flag is never cleared. -/
theorem linkHighlightAux_inside_id (l : List Event) :
    linkHighlightAux true l = l := by
  induction l with
  | nil => rfl
  | cons x xs ih => simp [linkHighlightAux, ih]

/-- A text event with no URL match is re-emitted as one identical text
event. -/
theorem linkParts_no_match (a : String) (h1 : urlMatches a.toList = [])
    (h2 : a ≠ "") : linkParts a = [Event.text a] := by
  have hne : a.toList ≠ [] := fun hl => h2 (String.ext hl)
  unfold linkParts
  rw [h1]
  show (partitionGo a.toList 0 []).flatMap partToEvents = _
  simp only [partitionGo, List.drop_zero, if_neg hne, List.flatMap_cons,
    List.flatMap_nil, partToEvents, List.append_nil]
  rfl

/-- C5 amended: a sequence consisting of a non-empty URL-free text event
followed by a link `StartTag` of any type and arbitrary further events
is a fixed point of `LinkHighlightStream`; from the first link
`StartTag` on, every event — between the tags and beyond — passes
through untouched, because the inside-link flag is never cleared. -/
theorem linkHighlight_after_link_fixed :
    (∀ (a : String) (lt : LinkType) (d ti : String) (l : List Event),
        urlMatches a.toList = [] → a ≠ "" →
        linkHighlight (Event.text a :: Event.startTag (Tag.link lt d ti) :: l) =
          Event.text a :: Event.startTag (Tag.link lt d ti) :: l) ∧
      (∀ l : List Event, linkHighlightAux true l = l) := by
  refine ⟨?_, linkHighlightAux_inside_id⟩
  intro a lt d ti l h1 h2
  show linkHighlightAux false _ = _
  simp [linkHighlightAux, linkParts_no_match a h1 h2, linkHighlightAux_inside_id]

/-- C5 witness: the fixed point at a concrete URL-free prefix, link tag
and tail. -/
theorem linkHighlight_after_link_fixed_witness :
    (urlMatches "foo ".toList = [] ∧ "foo " ≠ "") ∧
      linkHighlight [Event.text "foo ",
          Event.startTag (Tag.link .autolink "https://example.com" ""),
          Event.text "https://example.com"] =
        [Event.text "foo ",
          Event.startTag (Tag.link .autolink "https://example.com" ""),
          Event.text "https://example.com"] :=
  ⟨⟨by decide, by decide⟩,
    linkHighlight_after_link_fixed.1 "foo " .autolink "https://example.com" ""
      [Event.text "https://example.com"] (by decide) (by decide)⟩

/-- C5 counterexample: a sequence that contains an autolink
start/text/end triple whose text is a URL, but is preceded by a text
event that itself contains a URL, is altered by the stream — the claim
quantifies over every sequence containing such a triple and is
therefore false as stated. -/
theorem linkHighlight_fixed_point_cex :
    linkHighlight [Event.text "https://ab",
        Event.startTag (Tag.link .autolink "https://ab" ""),
        Event.text "https://ab",
        Event.endTag (Tag.link .autolink "https://ab" "")] ≠
      [Event.text "https://ab",
        Event.startTag (Tag.link .autolink "https://ab" ""),
        Event.text "https://ab",
        Event.endTag (Tag.link .autolink "https://ab" "")] := by
  decide

/-- C8: Bare-URL autolinking, concrete scenario — the single text event
`"foo https://example.com bar"` produces exactly the five events of the
claim, in order. -/
theorem linkHighlight_concrete_scenario :
    linkHighlight [Event.text "foo https://example.com bar"] =
      [Event.text "foo ",
        Event.startTag (Tag.link .autolink "https://example.com" ""),
        Event.text "https://example.com",
        Event.endTag (Tag.link .autolink "https://example.com" ""),
        Event.text " bar"] := by
  decide

/-- The drain loop of `UnknownRefHandlingStream` discards events up to
and including the first `ShortcutUnknown` end tag, then resumes normal
processing. -/
theorem unknownRefAux_drain (r : String → String → String → List Event) :
    ∀ l : List Event, unknownRefAux r true l = unknownRef r (drainSU l) := by
  intro l
  induction l with
  | nil => rfl
  | cons x xs ih =>
      cases x with
      | text s => simpa [unknownRefAux, drainSU] using ih
      | startTag tg => simpa [unknownRefAux, drainSU] using ih
      | endTag tg =>
          cases tg with
          | codeBlock k => simpa [unknownRefAux, drainSU] using ih
          | link lt d ti =>
              cases lt with
              | autolink => simpa [unknownRefAux, drainSU] using ih
              | shortcutUnknown => simp [unknownRefAux, drainSU, unknownRef]
              | otherType n => simpa [unknownRefAux, drainSU] using ih
          | otherTag n => simpa [unknownRefAux, drainSU] using ih
      | html s => simpa [unknownRefAux, drainSU] using ih
      | otherEvent n => simpa [unknownRefAux, drainSU] using ih

/-- C6: Unknown-ref resolution — on `StartTag(Link(ShortcutUnknown))`
immediately followed by a text event, the resolver is invoked exactly
once with the destination, title and that text as the label; its pushed
events are emitted in FIFO order before any further upstream pull, and
all further events up to and including the matching `ShortcutUnknown`
end tag (or stream exhaustion) are discarded. -/
theorem unknownRef_resolves (r : String → String → String → List Event)
    (d ti s : String) (rest : List Event) :
    unknownRef r (Event.startTag (Tag.link .shortcutUnknown d ti) ::
        Event.text s :: rest) =
      r d ti s ++ unknownRef r (drainSU rest) := by
  show unknownRefAux r false _ = _
  rw [show unknownRefAux r false (Event.startTag (Tag.link .shortcutUnknown d ti) ::
      Event.text s :: rest) = r d ti s ++ unknownRefAux r true rest from by
    simp [unknownRefAux]]
  rw [unknownRefAux_drain r rest]

/-- C7 counterexample: a `ShortcutUnknown` start tag immediately
followed by its end tag; the unrelated event after the pair is *not*
emitted — the unconditional drain loop discards it while hunting for a
second end tag, refuting the claim that only the stray start/end pair
is swallowed. -/
theorem unknownRef_missing_text_cex :
    unknownRef (fun _ _ _ => [])
        [Event.startTag (Tag.link .shortcutUnknown "" ""),
          Event.endTag (Tag.link .shortcutUnknown "" ""),
          Event.otherEvent 0] = [] ∧
      ([] : List Event) ≠ [Event.otherEvent 0] := by
  decide

/-- C7 amended: when the `ShortcutUnknown` start tag is followed by a
non-text event, no resolver call is made; that event and all further
events up to and including the next `ShortcutUnknown` end tag (or
stream exhaustion) are discarded, and only the events after that point
are emitted. -/
theorem unknownRef_missing_text_drains
    (r : String → String → String → List Event) (d ti : String)
    (e : Event) (rest : List Event) (he : e.isText = false) :
    unknownRef r (Event.startTag (Tag.link .shortcutUnknown d ti) :: e :: rest) =
      unknownRef r (drainSU rest) := by
  cases e with
  | text s => simp [Event.isText] at he
  | startTag tg =>
      show unknownRefAux r false _ = _
      simp [unknownRefAux, unknownRefAux_drain]
  | endTag tg =>
      show unknownRefAux r false _ = _
      simp [unknownRefAux, unknownRefAux_drain]
  | html s =>
      show unknownRefAux r false _ = _
      simp [unknownRefAux, unknownRefAux_drain]
  | otherEvent n =>
      show unknownRefAux r false _ = _
      simp [unknownRefAux, unknownRefAux_drain]

/-- C7 witness: the amended drain behaviour at a concrete stream. -/
theorem unknownRef_missing_text_drains_witness :
    Event.isText (Event.otherEvent 7) = false ∧
      unknownRef (fun _ _ _ => [])
          [Event.startTag (Tag.link .shortcutUnknown "a" "b"),
            Event.otherEvent 7, Event.text "x",
            Event.endTag (Tag.link .shortcutUnknown "a" "b"),
            Event.text "y"] =
        unknownRef (fun _ _ _ => [])
          (drainSU [Event.text "x",
            Event.endTag (Tag.link .shortcutUnknown "a" "b"),
            Event.text "y"]) :=
  ⟨rfl, unknownRef_missing_text_drains (fun _ _ _ => []) "a" "b"
    (Event.otherEvent 7)
    [Event.text "x", Event.endTag (Tag.link .shortcutUnknown "a" "b"),
      Event.text "y"] rfl⟩

/-- Mapping over an option preserves definedness. -/
theorem isSome_map_out (o : Option (List Event)) (f : List Event → List Event) :
    (o.map f).isSome = o.isSome := by
  cases o <;> rfl

/-- With balanced code-block tags the highlight stream never reaches the
panicking unwrap. -/
theorem syntaxHighlightAux_isSome (hl : CodeBlockKind → List String → String) :
    ∀ (l : List Event) (gen : Option (CodeBlockKind × List String)),
      noUnmatchedEnd gen.isSome l = true →
      (syntaxHighlightAux hl gen l).isSome = true := by
  intro l
  induction l with
  | nil => intro gen _; simp [syntaxHighlightAux]
  | cons x xs ih =>
      intro gen h
      cases x with
      | text s =>
          cases gen with
          | none =>
              simp only [syntaxHighlightAux, isSome_map_out]
              exact ih none (by simpa [noUnmatchedEnd] using h)
          | some g =>
              obtain ⟨ck, lines⟩ := g
              simp only [syntaxHighlightAux]
              exact ih (some (ck, lines ++ [s])) (by simpa [noUnmatchedEnd] using h)
      | startTag tg =>
          cases tg with
          | codeBlock k =>
              simp only [syntaxHighlightAux, isSome_map_out]
              exact ih (some (k, [])) (by simpa [noUnmatchedEnd] using h)
          | link lt d ti =>
              cases gen with
              | none =>
                  simp only [syntaxHighlightAux, isSome_map_out]
                  exact ih none (by simpa [noUnmatchedEnd] using h)
              | some g =>
                  obtain ⟨ck, lines⟩ := g
                  simp only [syntaxHighlightAux, isSome_map_out]
                  exact ih (some (ck, lines)) (by simpa [noUnmatchedEnd] using h)
          | otherTag n =>
              cases gen with
              | none =>
                  simp only [syntaxHighlightAux, isSome_map_out]
                  exact ih none (by simpa [noUnmatchedEnd] using h)
              | some g =>
                  obtain ⟨ck, lines⟩ := g
                  simp only [syntaxHighlightAux, isSome_map_out]
                  exact ih (some (ck, lines)) (by simpa [noUnmatchedEnd] using h)
      | endTag tg =>
          cases tg with
          | codeBlock k =>
              cases gen with
              | none => simp [noUnmatchedEnd] at h
              | some g =>
                  obtain ⟨ck, lines⟩ := g
                  simp only [syntaxHighlightAux, isSome_map_out]
                  refine ih none ?_
                  simp only [noUnmatchedEnd, Option.isSome_some, Bool.true_and] at h
                  simpa using h
          | link lt d ti =>
              cases gen with
              | none =>
                  simp only [syntaxHighlightAux, isSome_map_out]
                  exact ih none (by simpa [noUnmatchedEnd] using h)
              | some g =>
                  obtain ⟨ck, lines⟩ := g
                  simp only [syntaxHighlightAux, isSome_map_out]
                  exact ih (some (ck, lines)) (by simpa [noUnmatchedEnd] using h)
          | otherTag n =>
              cases gen with
              | none =>
                  simp only [syntaxHighlightAux, isSome_map_out]
                  exact ih none (by simpa [noUnmatchedEnd] using h)
              | some g =>
                  obtain ⟨ck, lines⟩ := g
                  simp only [syntaxHighlightAux, isSome_map_out]
                  exact ih (some (ck, lines)) (by simpa [noUnmatchedEnd] using h)
      | html s =>
          cases gen with
          | none =>
              simp only [syntaxHighlightAux, isSome_map_out]
              exact ih none (by simpa [noUnmatchedEnd] using h)
          | some g =>
              obtain ⟨ck, lines⟩ := g
              simp only [syntaxHighlightAux, isSome_map_out]
              exact ih (some (ck, lines)) (by simpa [noUnmatchedEnd] using h)
      | otherEvent n =>
          cases gen with
          | none =>
              simp only [syntaxHighlightAux, isSome_map_out]
              exact ih none (by simpa [noUnmatchedEnd] using h)
          | some g =>
              obtain ⟨ck, lines⟩ := g
              simp only [syntaxHighlightAux, isSome_map_out]
              exact ih (some (ck, lines)) (by simpa [noUnmatchedEnd] using h)

/-- Feeding a run of text events into the active generator accumulates
the lines in order; the end tag then emits the finalized html followed
by the end tag itself. -/
theorem syntaxHighlightAux_feed (hl : CodeBlockKind → List String → String)
    (k : CodeBlockKind) :
    ∀ (texts acc : List String) (ck : CodeBlockKind) (rest : List Event),
      syntaxHighlightAux hl (some (ck, acc))
          (texts.map Event.text ++ Event.endTag (Tag.codeBlock k) :: rest) =
        (syntaxHighlightAux hl none rest).map
          (fun out => Event.html (hl ck (acc ++ texts)) ::
            Event.endTag (Tag.codeBlock k) :: out) := by
  intro texts
  induction texts with
  | nil => intro acc ck rest; simp [syntaxHighlightAux]
  | cons u ts ih =>
      intro acc ck rest
      simp only [List.map_cons, List.cons_append]
      rw [show syntaxHighlightAux hl (some (ck, acc))
          (Event.text u :: (ts.map Event.text ++ Event.endTag (Tag.codeBlock k) :: rest)) =
          syntaxHighlightAux hl (some (ck, acc ++ [u]))
            (ts.map Event.text ++ Event.endTag (Tag.codeBlock k) :: rest) from by
        simp [syntaxHighlightAux]]
      rw [ih (acc ++ [u]) ck rest]
      simp [List.append_assoc]

/-- C4: Syntax-highlight balance — a code block (start tag, a possibly
empty run of text events, end tag) followed by any balanced remainder
produces exactly one synthesized html event, placed before the
preserved original end tag, and never reaches the panicking unwrap; the
empty code block is the `texts = []` instance. -/
theorem syntaxHighlight_block (hl : CodeBlockKind → List String → String)
    (k : CodeBlockKind) (texts : List String) (rest : List Event)
    (hbal : noUnmatchedEnd false rest = true) :
    ∃ out, syntaxHighlightAux hl none rest = some out ∧
      syntaxHighlight hl (Event.startTag (Tag.codeBlock k) ::
          (texts.map Event.text ++ Event.endTag (Tag.codeBlock k) :: rest)) =
        some (Event.startTag (Tag.codeBlock k) ::
          Event.html (hl k texts) :: Event.endTag (Tag.codeBlock k) :: out) := by
  have hsome : (syntaxHighlightAux hl none rest).isSome = true :=
    syntaxHighlightAux_isSome hl rest none hbal
  obtain ⟨out, hout⟩ := Option.isSome_iff_exists.mp hsome
  refine ⟨out, hout, ?_⟩
  show syntaxHighlightAux hl none _ = _
  rw [show syntaxHighlightAux hl none (Event.startTag (Tag.codeBlock k) ::
      (texts.map Event.text ++ Event.endTag (Tag.codeBlock k) :: rest)) =
      (syntaxHighlightAux hl (some (k, []))
        (texts.map Event.text ++ Event.endTag (Tag.codeBlock k) :: rest)).map
        (fun out => Event.startTag (Tag.codeBlock k) :: out) from by
    simp [syntaxHighlightAux]]
  rw [syntaxHighlightAux_feed hl k texts [] k rest, hout]
  simp

/-- C4 witness: the empty code block produces one html event and no
panic. -/
theorem syntaxHighlight_block_witness :
    noUnmatchedEnd false ([] : List Event) = true ∧
      syntaxHighlight (fun _ ls => sconcat ls)
          [Event.startTag (Tag.codeBlock (CodeBlockKind.fenced "rust")),
            Event.endTag (Tag.codeBlock (CodeBlockKind.fenced "rust"))] =
        some [Event.startTag (Tag.codeBlock (CodeBlockKind.fenced "rust")),
          Event.html (sconcat []),
          Event.endTag (Tag.codeBlock (CodeBlockKind.fenced "rust"))] := by
  refine ⟨rfl, ?_⟩
  obtain ⟨out, h1, h2⟩ := syntaxHighlight_block (fun _ ls => sconcat ls)
    (CodeBlockKind.fenced "rust") [] [] rfl
  simp only [syntaxHighlightAux] at h1
  injection h1 with h1
  subst h1
  simpa using h2

end RedwoodWiki
